import Mathlib

/-!
Verification of the MapReduce word-frequency pipeline of
`task_2_mapreduce_word_counter.py`.

Text is modelled as `List Char`; a word (token) is a `List Char` as well.
Python dictionaries that are only ever iterated in insertion order
(the `defaultdict` of `shuffle_function`, the `dict` built from the
reduced values) are modelled as insertion-ordered association lists.
-/

/-- A token / word: a Python string, modelled as its character list. -/
abbrev Word := List Char

/-- The fixed set `string.punctuation` of CPython. -/
def pythonPunctuation : List Char :=
  ("!\"#$%&\x27()*+,-./:;<=>?@[\\]^_\x60\x7b|\x7d~").toList

/-- A character is deleted by `remove_punctuation` iff it is in
`string.punctuation`. -/
def isPunct (c : Char) : Bool := pythonPunctuation.contains c

/-- `remove_punctuation`: `text.translate(str.maketrans("", "", string.punctuation))`
deletes every punctuation character and keeps everything else. -/
def remove_punctuation (text : List Char) : List Char :=
  text.filter (fun c => !(isPunct c))

/-- The ASCII whitespace characters `str.split()` splits on. -/
def isPySpace (c : Char) : Bool :=
  c == ' ' || c == '\t' || c == '\n' || c == '\r' || c == '\x0b' || c == '\x0c'

/-- Emit the (reversed) current token if it is nonempty. -/
def flushToken (cur : List Char) (rest : List Word) : List Word :=
  match cur with
  | [] => rest
  | _ => cur.reverse :: rest

/-- Worker for `splitWs`; `cur` holds the current token reversed. -/
def splitWsAux : List Char → List Char → List Word
  | [], cur => flushToken cur []
  | c :: cs, cur =>
    if isPySpace c then flushToken cur (splitWsAux cs [])
    else splitWsAux cs (c :: cur)

/-- Python `text.split()`: split on runs of whitespace, dropping empty
tokens (so leading/trailing whitespace contributes nothing). -/
def splitWs (text : List Char) : List Word := splitWsAux text []

/-- `map_function(word)` returns `(word, 1)`. -/
def map_function (word : Word) : Word × Nat := (word, 1)

/-- One step of the `defaultdict(list)` accumulation of `shuffle_function`:
append `value` to the list stored under `key`, creating the entry at the
end (insertion order) if the key is new. -/
def insertPair (acc : List (Word × List Nat)) (key : Word) (value : Nat) :
    List (Word × List Nat) :=
  match acc with
  | [] => [(key, [value])]
  | (k, vs) :: rest =>
    if k = key then (k, vs ++ [value]) :: rest
    else (k, vs) :: insertPair rest key value

/-- `shuffle_function(mapped_values)`: group the pairs by word into
append-ordered contribution lists; `shuffled.items()` iterates the
`defaultdict` in key-insertion order, which the association list keeps. -/
def shuffle_function (mapped_values : List (Word × Nat)) : List (Word × List Nat) :=
  mapped_values.foldl (fun acc kv => insertPair acc kv.1 kv.2) []

/-- `reduce_function((key, values))` returns `(key, sum(values))`. -/
def reduce_function (key_values : Word × List Nat) : Word × Nat :=
  (key_values.1, key_values.2.sum)

/-- The tokenization embedded in `map_reduce`: delete punctuation, split on
whitespace, keep the words with `len(word) >= min_length` (the source uses
the literal 4). -/
def tokenize (text : List Char) (min_length : Nat) : List Word :=
  (splitWs (remove_punctuation text)).filter (fun w => min_length ≤ w.length)

/-- `map_reduce(text)`: tokenization, then `executor.map(map_function, words)`
(which returns results in input order), then `shuffle_function`, then
`executor.map(reduce_function, shuffled_values)` (input order again), then
`dict(reduced_values)` — an insertion-ordered mapping, modelled as the
association list itself (its keys are already distinct). -/
def map_reduce (text : List Char) : List (Word × Nat) :=
  let words := splitWs (remove_punctuation text)
  let filtered := words.filter (fun w => 4 ≤ w.length)
  let mapped_values := filtered.map map_function
  let shuffled_values := shuffle_function mapped_values
  let reduced_values := shuffled_values.map reduce_function
  reduced_values

/-- The sort key of `visualize_top_words`: entry `a` comes before entry `b`
when `a` has the larger (or equal, by sort stability) count. -/
def countDesc (a b : Word × Nat) : Prop := b.2 ≤ a.2

instance : DecidableRel countDesc := fun a b => Nat.decLe b.2 a.2

instance : IsTotal (Word × Nat) countDesc :=
  ⟨fun a b => Nat.le_total b.2 a.2⟩

instance : IsTrans (Word × Nat) countDesc :=
  ⟨fun _ _ _ hab hbc => Nat.le_trans hbc hab⟩

/-- The ranking step of `visualize_top_words`:
`sorted(word_freq.items(), key=lambda item: item[1], reverse=True)[:top_n]`.
Python `sorted` is stable and `reverse=True` keeps equal-key elements in
original order, which a stable insertion sort under `countDesc` matches. -/
def rank (word_freq : List (Word × Nat)) (top_n : Nat) : List (Word × Nat) :=
  (List.insertionSort countDesc word_freq).take top_n

/-- `visualize_top_words` up to its data preparation: after ranking, the
line `words, frequencies = zip(*sorted_words)` raises `ValueError` when
`sorted_words` is empty (modelled as `none`); otherwise it yields the word
column and the frequency column (modelled as `some`). Printing and
plotting are side effects outside the model. -/
def visualize_top_words (word_freq : List (Word × Nat)) (top_n : Nat) :
    Option (List Word × List Nat) :=
  let sorted_words := rank word_freq top_n
  match sorted_words with
  | [] => none
  | ws => some (ws.map Prod.fst, ws.map Prod.snd)

/-- One step of a naive frequency count: bump the count of `w`, adding the
entry `(w, 1)` at the end if `w` is new. -/
def incr (acc : List (Word × Nat)) (w : Word) : List (Word × Nat) :=
  match acc with
  | [] => [(w, 1)]
  | (k, n) :: rest =>
    if k = w then (k, n + 1) :: rest else (k, n) :: incr rest w

/-- Naive reference implementation from the spec: a direct single-pass
frequency count of a token sequence, as an insertion-ordered association
list. -/
def naive_count (tokens : List Word) : List (Word × Nat) :=
  tokens.foldl incr []

/-- First lookup of a key in a grouped association list. -/
def lookupGroup (gs : List (Word × List Nat)) (w : Word) : Option (List Nat) :=
  match gs with
  | [] => none
  | (k, vs) :: rest => if k = w then some vs else lookupGroup rest w

/-- The distinct elements of a list, each kept at its first occurrence,
in first-occurrence order. -/
def firstOccurrences : List Word → List Word
  | [] => []
  | w :: ws => w :: (firstOccurrences ws).filter (fun v => decide (v ≠ w))

/-- Append the values of a group, or start a group, as `insertPair` does
viewed through `lookupGroup`. -/
def combineOpt (o : Option (List Nat)) (vs : List Nat) : Option (List Nat) :=
  match o with
  | some xs => some (xs ++ vs)
  | none => match vs with
    | [] => none
    | _ => some vs

example : splitWs (("  good-bye  the cat ").toList) =
    [("good-bye").toList, ("the").toList, ("cat").toList] := by decide

example : remove_punctuation (("good-bye").toList) = ("goodbye").toList := by decide

example : map_reduce (("apple apple banana grape grape grape").toList) =
    [(("apple").toList, 2), (("banana").toList, 1), (("grape").toList, 3)] := by decide

example : rank [(("a").toList, 1), (("b").toList, 3), (("c").toList, 3)] 2 =
    [(("b").toList, 3), (("c").toList, 3)] := by decide

/-! ## Helper lemmas: reduce after shuffle equals the naive count -/

theorem insertPair_map_reduce (acc : List (Word × List Nat)) (k : Word) :
    (insertPair acc k 1).map reduce_function = incr (acc.map reduce_function) k := by
  induction acc with
  | nil => rfl
  | cons hd tl ih =>
    obtain ⟨k0, vs⟩ := hd
    by_cases h : k0 = k
    · subst h
      simp [insertPair, incr, reduce_function, List.sum_append]
    · simp [insertPair, incr, reduce_function, h, ih]

theorem foldl_insertPair_map_reduce (tokens : List Word) :
    ∀ acc : List (Word × List Nat),
      (tokens.foldl (fun a w => insertPair a w 1) acc).map reduce_function =
        tokens.foldl incr (acc.map reduce_function) := by
  induction tokens with
  | nil => intro acc; rfl
  | cons t ts ih =>
    intro acc
    simp only [List.foldl_cons]
    rw [ih, insertPair_map_reduce]

theorem reduce_shuffle_map_eq_naive (tokens : List Word) :
    (shuffle_function (tokens.map map_function)).map reduce_function =
      naive_count tokens := by
  unfold shuffle_function naive_count
  rw [List.foldl_map]
  exact foldl_insertPair_map_reduce tokens []

theorem incr_total (acc : List (Word × Nat)) (w : Word) :
    ((incr acc w).map Prod.snd).sum = (acc.map Prod.snd).sum + 1 := by
  induction acc with
  | nil => rfl
  | cons hd tl ih =>
    obtain ⟨k, n⟩ := hd
    by_cases h : k = w
    · simp [incr, h]
      omega
    · simp [incr, h, ih]
      omega

theorem foldl_incr_total (tokens : List Word) :
    ∀ acc : List (Word × Nat),
      ((tokens.foldl incr acc).map Prod.snd).sum =
        (acc.map Prod.snd).sum + tokens.length := by
  induction tokens with
  | nil => intro acc; simp
  | cons t ts ih =>
    intro acc
    simp only [List.foldl_cons, List.length_cons]
    rw [ih, incr_total]
    omega

theorem naive_count_total (tokens : List Word) :
    ((naive_count tokens).map Prod.snd).sum = tokens.length := by
  simpa using foldl_incr_total tokens []

theorem map_reduce_eq_naive (text : List Char) :
    map_reduce text = naive_count (tokenize text 4) := by
  unfold map_reduce tokenize
  exact reduce_shuffle_map_eq_naive _

/-! ## Helper lemmas: the shape of the shuffled groups -/

/-- The values carried by the pairs whose word is `w`, in input order. -/
def groupValues (l : List (Word × Nat)) (w : Word) : List Nat :=
  (l.filter (fun p => decide (p.1 = w))).map Prod.snd

theorem groupValues_cons (k : Word) (v : Nat) (ps : List (Word × Nat)) (w : Word) :
    groupValues ((k, v) :: ps) w =
      if k = w then v :: groupValues ps w else groupValues ps w := by
  by_cases h : k = w <;> simp [groupValues, List.filter_cons, h]

theorem lookupGroup_insertPair (acc : List (Word × List Nat)) (k : Word) (v : Nat)
    (w : Word) :
    lookupGroup (insertPair acc k v) w =
      if w = k then some ((lookupGroup acc k).getD [] ++ [v])
      else lookupGroup acc w := by
  induction acc with
  | nil =>
    by_cases h : w = k
    · subst h; simp [insertPair, lookupGroup]
    · simp [insertPair, lookupGroup, h, Ne.symm h]
  | cons hd tl ih =>
    obtain ⟨k0, vs⟩ := hd
    by_cases hk : k0 = k
    · subst hk
      by_cases hw : w = k0
      · subst hw; simp [insertPair, lookupGroup]
      · simp [insertPair, lookupGroup, hw, Ne.symm hw]
    · by_cases hw : w = k
      · subst hw
        have hk0w : k0 ≠ w := hk
        simp [insertPair, lookupGroup, hk, hk0w, ih]
      · by_cases h0 : k0 = w
        · simp [insertPair, lookupGroup, hk, h0, hw, ih]
        · simp [insertPair, lookupGroup, hk, h0, hw, ih]

theorem lookupGroup_foldl (l : List (Word × Nat)) :
    ∀ (acc : List (Word × List Nat)) (w : Word),
      lookupGroup (l.foldl (fun a kv => insertPair a kv.1 kv.2) acc) w =
        combineOpt (lookupGroup acc w) (groupValues l w) := by
  induction l with
  | nil =>
    intro acc w
    cases h : lookupGroup acc w <;> simp [combineOpt, groupValues, h]
  | cons p ps ih =>
    intro acc w
    obtain ⟨k, v⟩ := p
    simp only [List.foldl_cons]
    rw [ih, lookupGroup_insertPair, groupValues_cons]
    by_cases hw : w = k
    · subst hw
      rw [if_pos rfl, if_pos rfl]
      cases h : lookupGroup acc w with
      | none => simp [combineOpt, h]
      | some xs => simp [combineOpt, h]
    · rw [if_neg hw, if_neg (Ne.symm hw)]

theorem mem_firstOccurrences (ks : List Word) (v : Word) :
    v ∈ firstOccurrences ks ↔ v ∈ ks := by
  induction ks with
  | nil => simp [firstOccurrences]
  | cons w ws ih =>
    by_cases h : v = w
    · subst h; simp [firstOccurrences]
    · simp [firstOccurrences, List.mem_filter, ih, h]

theorem nodup_firstOccurrences (ks : List Word) : (firstOccurrences ks).Nodup := by
  induction ks with
  | nil => simp [firstOccurrences]
  | cons w ws ih =>
    rw [firstOccurrences]
    refine List.nodup_cons.mpr ⟨?_, ih.filter _⟩
    intro hmem
    rw [List.mem_filter] at hmem
    simp at hmem

theorem keys_insertPair (acc : List (Word × List Nat)) (k : Word) (v : Nat) :
    (insertPair acc k v).map Prod.fst =
      if k ∈ acc.map Prod.fst then acc.map Prod.fst
      else acc.map Prod.fst ++ [k] := by
  induction acc with
  | nil => simp [insertPair]
  | cons hd tl ih =>
    obtain ⟨k0, vs⟩ := hd
    by_cases h : k0 = k
    · subst h; simp [insertPair]
    · by_cases hm : k ∈ tl.map Prod.fst
      · simp [insertPair, h, ih, hm, Ne.symm h]
      · simp [insertPair, h, ih, hm, Ne.symm h]

theorem keys_foldl_insertPair (l : List (Word × Nat)) :
    ∀ acc : List (Word × List Nat),
      (l.foldl (fun a kv => insertPair a kv.1 kv.2) acc).map Prod.fst =
        acc.map Prod.fst ++
          (firstOccurrences (l.map Prod.fst)).filter
            (fun v => decide (v ∉ acc.map Prod.fst)) := by
  induction l with
  | nil => intro acc; simp [firstOccurrences]
  | cons p ps ih =>
    intro acc
    obtain ⟨k, v⟩ := p
    simp only [List.foldl_cons, List.map_cons]
    rw [ih, keys_insertPair]
    have h1 : firstOccurrences (k :: ps.map Prod.fst) =
        k :: (firstOccurrences (ps.map Prod.fst)).filter (fun v => decide (v ≠ k)) := rfl
    rw [h1, List.filter_cons]
    by_cases hm : k ∈ acc.map Prod.fst
    · rw [if_pos hm]
      have h2 : (decide (k ∉ acc.map Prod.fst)) = false := by simp [hm]
      rw [h2]
      simp only [Bool.false_eq_true, if_false, List.filter_filter]
      refine congrArg (fun t => _ ++ t) ?_
      refine List.filter_congr ?_
      intro w _
      by_cases hw : w ∈ acc.map Prod.fst
      · simp [hw]
      · have hwk : w ≠ k := fun hh => hw (hh ▸ hm)
        simp [hw, hwk]
    · rw [if_neg hm]
      have h2 : (decide (k ∉ acc.map Prod.fst)) = true := by simp [hm]
      rw [h2]
      simp only [if_pos, List.filter_filter, List.append_assoc, List.singleton_append]
      refine congrArg (fun t => _ ++ k :: t) ?_
      refine List.filter_congr ?_
      intro w _
      by_cases hw : w ∈ acc.map Prod.fst
      · by_cases hwk : w = k <;> simp [hw, hwk, List.mem_append]
      · by_cases hwk : w = k <;> simp [hw, hwk, List.mem_append]

theorem shuffle_keys (pairs : List (Word × Nat)) :
    (shuffle_function pairs).map Prod.fst = firstOccurrences (pairs.map Prod.fst) := by
  unfold shuffle_function
  rw [keys_foldl_insertPair]
  simp

theorem shuffle_keys_nodup (pairs : List (Word × Nat)) :
    ((shuffle_function pairs).map Prod.fst).Nodup := by
  rw [shuffle_keys]
  exact nodup_firstOccurrences _

theorem lookupGroup_eq_of_mem (gs : List (Word × List Nat)) (w : Word) (vs : List Nat)
    (hnd : (gs.map Prod.fst).Nodup) (hmem : (w, vs) ∈ gs) :
    lookupGroup gs w = some vs := by
  induction gs with
  | nil => cases hmem
  | cons g rest ih =>
    obtain ⟨k, xs⟩ := g
    rw [List.map_cons, List.nodup_cons] at hnd
    rcases List.mem_cons.mp hmem with heq | hmem2
    · cases heq
      simp [lookupGroup]
    · have hk : k ≠ w := by
        intro hkw
        subst hkw
        exact hnd.1 (List.mem_map.mpr ⟨(k, vs), hmem2, rfl⟩)
      rw [lookupGroup, if_neg hk]
      exact ih hnd.2 hmem2

theorem lookupGroup_shuffle (pairs : List (Word × Nat)) (w : Word) :
    lookupGroup (shuffle_function pairs) w =
      combineOpt none (groupValues pairs w) := by
  unfold shuffle_function
  rw [lookupGroup_foldl]
  rfl

theorem shuffle_group_values (pairs : List (Word × Nat)) (w : Word) (vs : List Nat)
    (hmem : (w, vs) ∈ shuffle_function pairs) :
    vs = groupValues pairs w := by
  have hl := lookupGroup_eq_of_mem _ _ _ (shuffle_keys_nodup pairs) hmem
  rw [lookupGroup_shuffle] at hl
  cases hgv : groupValues pairs w with
  | nil => rw [hgv] at hl; simp [combineOpt] at hl
  | cons a as =>
    rw [hgv] at hl
    simp only [combineOpt, Option.some.injEq] at hl
    exact hl.symm

theorem keys_map_reduce_fn (gs : List (Word × List Nat)) :
    (gs.map reduce_function).map Prod.fst = gs.map Prod.fst := by
  induction gs with
  | nil => rfl
  | cons g rest ih => simp [reduce_function, ih]

theorem keys_map_reduce_subset_tokens (text : List Char) (w : Word)
    (hmem : w ∈ (map_reduce text).map Prod.fst) : w ∈ tokenize text 4 := by
  unfold map_reduce at hmem
  rw [keys_map_reduce_fn, shuffle_keys] at hmem
  rw [mem_firstOccurrences] at hmem
  have : ((tokenize text 4).map map_function).map Prod.fst = tokenize text 4 := by
    rw [List.map_map]
    have hcomp : (Prod.fst ∘ map_function : Word → Word) = id := rfl
    rw [hcomp, List.map_id]
  rw [show (splitWs (remove_punctuation text)).filter (fun w => 4 ≤ w.length) =
      tokenize text 4 from rfl] at hmem
  rw [this] at hmem
  exact hmem

/-! ## Claim theorems -/

/-- Claim C1: for every input text, the totals over all (word, total)
entries in the output of `map_reduce` sum to the number of tokens that
pass the length filter after punctuation deletion and whitespace split. -/
theorem C1_sum_totals_eq_token_count (text : List Char) :
    ((map_reduce text).map Prod.snd).sum = (tokenize text 4).length := by
  rw [map_reduce_eq_naive, naive_count_total]

/-- Claim C2: mapping each token with `map_function`, grouping the pairs
with `shuffle_function` and reducing each group with `reduce_function`
yields exactly the word-to-count mapping of a direct single-pass
frequency count of the token sequence. -/
theorem C2_map_shuffle_reduce_eq_naive (tokens : List Word) :
    (shuffle_function (tokens.map map_function)).map reduce_function =
      naive_count tokens :=
  reduce_shuffle_map_eq_naive tokens

/-- Claim C3: tokenization deletes every punctuation character (pure
removal, so words joined only by punctuation fuse, e.g. good-bye becomes
goodbye), splits on whitespace runs, and keeps exactly the tokens of
length at least 4; `map_reduce` counts exactly those tokens. -/
theorem C3_tokenization (text : List Char) :
    (∀ w : Word, w ∈ tokenize text 4 ↔
        (w ∈ splitWs (remove_punctuation text) ∧ 4 ≤ w.length)) ∧
      map_reduce text = naive_count (tokenize text 4) ∧
      remove_punctuation (("good-bye").toList) = ("goodbye").toList := by
  refine ⟨?_, map_reduce_eq_naive text, by decide⟩
  intro w
  simp [tokenize, List.mem_filter]

/-- Claim C4: the pipeline performs no lowercasing: every word key in the
output of `map_reduce` is one of the tokens verbatim (with exactly the
character case it had in the input), and tokens differing only in case
are counted as distinct words. -/
theorem C4_case_sensitive (text : List Char) :
    (∀ w : Word, w ∈ (map_reduce text).map Prod.fst → w ∈ tokenize text 4) ∧
      map_reduce (("Apple APPLE apple").toList) =
        [(("Apple").toList, 1), (("APPLE").toList, 1), (("apple").toList, 1)] :=
  ⟨fun w hw => keys_map_reduce_subset_tokens text w hw, by decide⟩

/-- Witness for C4: the key Apple, capital A kept, is among the output
keys of `map_reduce` and is a token of the input with its original case. -/
theorem C4_case_sensitive_witness :
    (("Apple").toList ∈ (map_reduce (("Apple APPLE apple").toList)).map Prod.fst) ∧
      ("Apple").toList ∈ tokenize (("Apple APPLE apple").toList) 4 :=
  ⟨by decide,
    (C4_case_sensitive (("Apple APPLE apple").toList)).1 (("Apple").toList) (by decide)⟩

/-- Claim C5: when no token passes the length filter — in particular for
the empty text — `map_reduce` returns the empty mapping and the ranking
step yields the empty sequence, with no failure. -/
theorem C5_empty_input (text : List Char) (n : Nat)
    (h : tokenize text 4 = []) :
    map_reduce text = [] ∧ rank (map_reduce text) n = [] := by
  have hmr : map_reduce text = [] := by
    rw [map_reduce_eq_naive, h]
    rfl
  refine ⟨hmr, ?_⟩
  rw [hmr]
  simp [rank, List.insertionSort]

/-- Witness for C5 at the empty text. -/
theorem C5_empty_input_witness :
    tokenize (("").toList) 4 = [] ∧
      (map_reduce (("").toList) = [] ∧ rank (map_reduce (("").toList)) 15 = []) :=
  ⟨by decide, C5_empty_input (("").toList) 15 (by decide)⟩

/-- Claim C6: when `top_n` exceeds the number of entries of the mapping,
the ranking step returns all of them — exactly as many entries as the
mapping has, a permutation of it — sorted by count descending, with no
error. -/
theorem C6_topn_exceeds_distinct (freq : List (Word × Nat)) (n : Nat)
    (h : freq.length < n) :
    (rank freq n).length = freq.length ∧
      (rank freq n).Perm freq ∧
      List.Sorted countDesc (rank freq n) := by
  have hr : rank freq n = List.insertionSort countDesc freq := by
    unfold rank
    apply List.take_of_length_le
    rw [List.length_insertionSort]
    omega
  rw [hr]
  exact ⟨List.length_insertionSort countDesc freq,
    List.perm_insertionSort countDesc freq,
    List.sorted_insertionSort countDesc freq⟩

/-- Witness for C6 on a two-entry mapping and top_n 5. -/
theorem C6_topn_exceeds_distinct_witness :
    ([(("alpha").toList, 1), (("beta").toList, 2)] : List (Word × Nat)).length < 5 ∧
      ((rank [(("alpha").toList, 1), (("beta").toList, 2)] 5).length =
          ([(("alpha").toList, 1), (("beta").toList, 2)] : List (Word × Nat)).length ∧
        (rank [(("alpha").toList, 1), (("beta").toList, 2)] 5).Perm
          [(("alpha").toList, 1), (("beta").toList, 2)] ∧
        List.Sorted countDesc (rank [(("alpha").toList, 1), (("beta").toList, 2)] 5)) :=
  ⟨by decide,
    C6_topn_exceeds_distinct [(("alpha").toList, 1), (("beta").toList, 2)] 5 (by decide)⟩

/-- Claim C7: the pipeline is deterministic: two runs of `map_reduce` on
identical input texts yield identical outputs, entry for entry, so the
total per word is stable across runs. -/
theorem C7_deterministic (t1 t2 : List Char) (h : t1 = t2) :
    map_reduce t1 = map_reduce t2 ∧
      ∀ w : Word, ∀ c : Nat, ((w, c) ∈ map_reduce t1 ↔ (w, c) ∈ map_reduce t2) := by
  subst h
  exact ⟨rfl, fun _ _ => Iff.rfl⟩

/-- Witness for C7 on a concrete text. -/
theorem C7_deterministic_witness :
    (("alpha beta").toList = ("alpha beta").toList) ∧
      (map_reduce (("alpha beta").toList) = map_reduce (("alpha beta").toList) ∧
        ∀ w : Word, ∀ c : Nat, ((w, c) ∈ map_reduce (("alpha beta").toList) ↔
          (w, c) ∈ map_reduce (("alpha beta").toList))) :=
  ⟨rfl, C7_deterministic (("alpha beta").toList) (("alpha beta").toList) rfl⟩

/-- Claim C8: on the text apple apple banana grape grape grape with
min_length 4, every word passes the filter, `map_reduce` counts apple 2,
banana 1, grape 3, and ranking with top_n 2 gives grape 3 then apple 2. -/
theorem C8_scenario :
    tokenize (("apple apple banana grape grape grape").toList) 4 =
        [("apple").toList, ("apple").toList, ("banana").toList,
          ("grape").toList, ("grape").toList, ("grape").toList] ∧
      map_reduce (("apple apple banana grape grape grape").toList) =
        [(("apple").toList, 2), (("banana").toList, 1), (("grape").toList, 3)] ∧
      rank (map_reduce (("apple apple banana grape grape grape").toList)) 2 =
        [(("grape").toList, 3), (("apple").toList, 2)] :=
  ⟨by decide, by decide, by decide⟩

/-- Claim C9: `shuffle_function` groups pairs by word into contribution
lists whose elements appear in input order (the values of the matching
pairs, in order), and lists the groups by first occurrence of each
distinct word in the input pair sequence. -/
theorem C9_shuffle_grouping (pairs : List (Word × Nat)) :
    (∀ w : Word, ∀ vs : List Nat, (w, vs) ∈ shuffle_function pairs →
        vs = (pairs.filter (fun p => decide (p.1 = w))).map Prod.snd) ∧
      (shuffle_function pairs).map Prod.fst =
        firstOccurrences (pairs.map Prod.fst) := by
  refine ⟨?_, shuffle_keys pairs⟩
  intro w vs hmem
  simpa [groupValues] using shuffle_group_values pairs w vs hmem

/-- Witness for C9 on the pairs (aaaa,1), (bbbb,1), (aaaa,1). -/
theorem C9_shuffle_grouping_witness :
    ((("aaaa").toList, [1, 1]) ∈
        shuffle_function
          [((("aaaa").toList : Word), 1), (("bbbb").toList, 1), (("aaaa").toList, 1)]) ∧
      [1, 1] =
        (([((("aaaa").toList : Word), 1), (("bbbb").toList, 1),
            (("aaaa").toList, 1)].filter
          (fun p => decide (p.1 = ("aaaa").toList))).map Prod.snd) :=
  ⟨by decide,
    (C9_shuffle_grouping
        [((("aaaa").toList : Word), 1), (("bbbb").toList, 1), (("aaaa").toList, 1)]).1
      (("aaaa").toList) [1, 1] (by decide)⟩

/-- Claim C10: the output stage cannot handle zero distinct words: on an
empty mapping the zip-unpacking step of `visualize_top_words` fails
(modelled by none), even though `map_reduce` on the empty text returns
the empty mapping without failing. -/
theorem C10_visualize_empty_fails (n : Nat) :
    visualize_top_words [] n = none ∧
      map_reduce (("").toList) = [] ∧
      visualize_top_words (map_reduce (("").toList)) n = none := by
  have h : ∀ m : Nat, rank ([] : List (Word × Nat)) m = [] := by
    intro m
    simp [rank, List.insertionSort]
  have hv : visualize_top_words [] n = none := by
    simp only [visualize_top_words, h]
  have hmr : map_reduce (("").toList) = [] := by decide
  exact ⟨hv, hmr, by rw [hmr]; exact hv⟩
